import Mathlib

/-!
Verification development for the docker hosts-file updater
(source: docker_hosts_updater.py).

The Python source is shallowly embedded: each pure fragment of the program
becomes an executable Lean definition operating on explicit data
(file contents as lists of characters or lists of lines, the container
inventory as a list of records, the coordinator's lock state as an explicit
state record).  Side-effecting steps (subprocess calls, file IO) are
modelled by explicit outcome parameters or step descriptors that record
exactly what the source does.
-/

namespace DockerHosts

/-! ## Constants from the source (lines 19-25) -/

def HOSTS_FILE : String := "/etc/hosts"

def BEGIN_BLOCK : String := "# BEGIN DOCKER CONTAINERS"

def END_BLOCK : String := "# END DOCKER CONTAINERS"

def defaultDomainBase : String := "base.domain"

/-! ## Python string primitives used by the source

These model the exact Python operations on the ASCII fragment the
program manipulates: str.strip, str.lower on the final unit character,
str.lstrip("/"), str.split(".")[0], substring membership (the in
operator), and int() on decimal literals. -/

/-- The characters Python's str.strip() removes in the ASCII range. -/
def pyIsSpace (c : Char) : Bool :=
  c = ' ' || c = '\t' || c = '\n' || c = '\x0d' || c = '\x0b' || c = '\x0c'

/-- Python str.strip() on the character list of a string. -/
def pyStripChars (cs : List Char) : List Char :=
  ((cs.dropWhile pyIsSpace).reverse.dropWhile pyIsSpace).reverse

/-- Python str.strip() (ASCII whitespace). -/
def pyStrip (s : String) : String :=
  ⟨pyStripChars s.data⟩

/-- Python str.lower() on one ASCII character. -/
def pyLower (c : Char) : Char :=
  if 'A' ≤ c ∧ c ≤ 'Z' then Char.ofNat (c.toNat + 32) else c

/-- Python str.lstrip("/"), used on the container Name field (line 133). -/
def lstripSlash (s : String) : String :=
  ⟨s.data.dropWhile (· = '/')⟩

/-- Python name.split(".")[0]: the part of the string before the first dot
(line 170). -/
def takeBeforeDot (s : String) : String :=
  ⟨s.data.takeWhile (· ≠ '.')⟩

/-- Is p a prefix of s (character lists)?  Executable, used to model
substring search. -/
def isPre : List Char → List Char → Bool
  | [], _ => true
  | _ :: _, [] => false
  | a :: p, b :: s => a = b && isPre p s

/-- Python substring membership p in s, on character lists. -/
def occursB (p : List Char) : List Char → Bool
  | [] => isPre p []
  | c :: t => isPre p (c :: t) || occursB p (t)

/-- The pattern p occurs in s starting at character index i. -/
def occAt (s p : List Char) (i : Nat) : Prop :=
  isPre p (s.drop i) = true

instance (s p : List Char) (i : Nat) : Decidable (occAt s p i) := by
  unfold occAt; infer_instance

/-! ## Data model: the parsed docker-inspect inventory

One NetworkInfo per (container, network) pair: the IPAddress and Aliases
fields read on lines 142-143.  One Container per inspected container:
the Name, Config.Hostname and NetworkSettings.Networks fields read on
lines 133-135.  Networks is a dict; its items() order is modelled by the
list order. -/

structure NetworkInfo where
  networkName : String
  ipAddress : String
  aliases : List String
deriving Repr, DecidableEq

structure Container where
  rawName : String
  hostname : String
  networks : List NetworkInfo
deriving Repr, DecidableEq

/-- One synthesized reconciliation record: an IP address plus its ordered
name list.  The source renders it as the line "ip n1 n2 ..." (line 180). -/
structure HostEntry where
  ipAddress : String
  names : List String
deriving Repr, DecidableEq

/-- Space-separated join, Python " ".join. -/
def joinSpace : List String → String
  | [] => ""
  | [s] => s
  | s :: t => s ++ " " ++ joinSpace t

/-- Render a HostEntry the way line 180 does. -/
def renderEntry (e : HostEntry) : String :=
  e.ipAddress ++ " " ++ joinSpace e.names

/-! ## Entry Synthesizer (get_docker_container_hosts, lines 128-185) -/

/-- The hostnames list built on lines 149-163: container name if
non-empty, then the configured hostname if non-empty and different,
then each non-empty alias not already present. -/
def buildHostnames (containerName hostname : String) (aliases : List String) :
    List String :=
  let hs0 : List String := if containerName ≠ "" then [containerName] else []
  let hs1 : List String :=
    if hostname ≠ "" ∧ hostname ≠ containerName then hs0 ++ [hostname] else hs0
  aliases.foldl (fun hs al => if al ≠ "" ∧ al ∉ hs then hs ++ [al] else hs) hs1

/-- The all_names expansion of lines 167-172: for each hostname, its part
before the first dot and that part suffixed with the domain base. -/
def allNames (domainBase : String) (hostnames : List String) : List String :=
  hostnames.foldl
    (fun acc n =>
      let clean := takeBeforeDot n
      acc ++ [clean, clean ++ "." ++ domainBase]) []

/-- The duplicate-removing loop of lines 175-178: keep the first
occurrence of each string, preserving order. -/
def dedupKeepFirst (l : List String) : List String :=
  l.foldl (fun acc n => if n ∈ acc then acc else acc ++ [n]) []

/-- The names an attachment contributes if it wins its IP. -/
def entryNames (domainBase : String) (hostnames : List String) : List String :=
  dedupKeepFirst (allNames domainBase hostnames)

/-- One (container, network) attachment after field extraction:
the attachment's IP together with its built hostnames list. -/
structure Att where
  ip : String
  hostnames : List String
deriving Repr, DecidableEq

/-- Synthesizer state: the emitted entries and the seen_ips set (modelled
as the list of IPs in insertion order; only membership is used). -/
abbrev SynthState := List HostEntry × List String

/-- Processing of one attachment, the body of the network loop
(lines 141-183): skip when the IP is empty or already seen; skip when the
hostnames list is empty; otherwise emit the entry and claim the IP. -/
def processAtt (domainBase : String) (st : SynthState) (a : Att) : SynthState :=
  if a.ip = "" ∨ a.ip ∈ st.2 then st
  else if a.hostnames = [] then st
  else (st.1 ++ [HostEntry.mk a.ip (entryNames domainBase a.hostnames)], st.2 ++ [a.ip])

/-- The network loop of one container (lines 141-183). -/
def processNetwork (domainBase containerName hostname : String)
    (st : SynthState) (ni : NetworkInfo) : SynthState :=
  processAtt domainBase st ⟨ni.ipAddress, buildHostnames containerName hostname ni.aliases⟩

/-- The container loop body (lines 132-183): extract the name (with the
leading slash stripped) and hostname, then walk the networks.  A container
with no networks is skipped (line 137), which folding over the empty list
reproduces. -/
def processContainer (domainBase : String) (st : SynthState) (c : Container) :
    SynthState :=
  c.networks.foldl (processNetwork domainBase (lstripSlash c.rawName) c.hostname) st

/-- The Entry Synthesizer: the HostEntry records the pass emits for a
parsed inventory. -/
def synthEntries (domainBase : String) (cs : List Container) : List HostEntry :=
  (cs.foldl (processContainer domainBase) ([], [])).1

/-- The attachments one container contributes, in network order. -/
def attsOfContainer (c : Container) : List Att :=
  c.networks.map
    (fun ni => ⟨ni.ipAddress, buildHostnames (lstripSlash c.rawName) c.hostname ni.aliases⟩)

/-- The attachments of an inventory, in container order then network
order, with their built hostnames. -/
def flattenAtts (cs : List Container) : List Att :=
  (cs.map attsOfContainer).flatten

/-- The HostEntry an attachment produces when it wins its IP. -/
def attEmits (domainBase : String) (a : Att) : HostEntry :=
  ⟨a.ip, entryNames domainBase a.hostnames⟩

/-- Does this attachment qualify to claim IP p: it carries p, p is
non-empty, and its hostnames list is non-empty? -/
def qualifies (p : String) (a : Att) : Bool :=
  a.ip == p && !(a.ip == "") && !a.hostnames.isEmpty

/-- Outcome of the docker list/inspect queries feeding the synthesizer.
The non-ok constructors are the failure branches of lines 110-126 and
187-195: a failing list command, a failing inspect command, a timeout
(RuntimeUnavailable), and undecodable JSON (InventoryParseError). -/
inductive InventoryResult where
  | ok (containers : List Container)
  | listFailed
  | inspectFailed
  | timeoutExpired
  | jsonError
deriving Repr, DecidableEq

/-- get_docker_container_hosts (lines 101-195) as a function of the query
outcome: on success the rendered synthesized entries, on every failure
branch the empty list (lines 112, 126, 189, 192, 195). -/
def get_docker_container_hosts (domainBase : String) (inv : InventoryResult) :
    List String :=
  match inv with
  | .ok cs => (synthEntries domainBase cs).map renderEntry
  | .listFailed => []
  | .inspectFailed => []
  | .timeoutExpired => []
  | .jsonError => []

/-! ## Managed-Section File Writer (update_hosts_file, lines 198-247) -/

/-- Python splitlines(keepends=True) restricted to the line boundaries
the program's files contain (newline, carriage return, CRLF). -/
def splitLinesKeepAux : List Char → List Char → List (List Char)
  | [], acc => if acc = [] then [] else [acc.reverse]
  | '\x0d' :: '\n' :: rest, acc =>
      (acc.reverse ++ ['\x0d', '\n']) :: splitLinesKeepAux rest []
  | '\x0d' :: rest, acc => (acc.reverse ++ ['\x0d']) :: splitLinesKeepAux rest []
  | '\n' :: rest, acc => (acc.reverse ++ ['\n']) :: splitLinesKeepAux rest []
  | c :: rest, acc => splitLinesKeepAux rest (c :: acc)

/-- splitlines(keepends=True) on a string, producing the line list the
writer works on (line 204). -/
def splitLinesKeep (s : String) : List String :=
  (splitLinesKeepAux s.data []).map (fun cs => ⟨cs⟩)

/-- Concatenate the lines back into file content. -/
def joinAll (lines : List String) : String :=
  lines.foldl (· ++ ·) ""

/-- The index of the first element satisfying p, modelling
next(i for i, line in enumerate(lines) if ...) (lines 208-209). -/
def findIdxO {α : Type} (p : α → Bool) : List α → Option Nat
  | [] => none
  | a :: t => if p a then some 0 else (findIdxO p t).map (· + 1)

/-- Does this line strip to the begin marker (line 208)? -/
def isBeginLine (l : String) : Bool :=
  pyStrip l = BEGIN_BLOCK

/-- Does this line strip to the end marker (line 209)? -/
def isEndLine (l : String) : Bool :=
  pyStrip l = END_BLOCK

/-- The pure core of update_hosts_file (lines 204-222): find the first
begin-marker line and the first end-marker line, fail (return False after
logging, modelled as none) if either is missing, otherwise keep everything
up to and including the begin marker, then one rendered line per entry,
then everything from the end marker on. -/
def update_hosts_file (entries : List String) (lines : List String) :
    Option (List String) :=
  match findIdxO isBeginLine lines, findIdxO isEndLine lines with
  | some s, some e =>
      some (lines.take (s + 1) ++ entries.map (fun en => en ++ "\n") ++ lines.drop e)
  | _, _ => none

/-- update_hosts_file on raw file content. -/
def update_hosts_file_str (entries : List String) (content : String) :
    Option String :=
  (update_hosts_file entries (splitLinesKeep content)).map joinAll

/-- One reconciliation pass over the file: the line-214 call feeding the
line-218 rewrite, as a function of the inventory-query outcome. -/
def reconcile_cycle (domainBase : String) (inv : InventoryResult)
    (lines : List String) : Option (List String) :=
  update_hosts_file (get_docker_container_hosts domainBase inv) lines

/-! ## The effectful write steps (lines 225-231)

The writer's side effects are a fixed sequence: write the new content to
a NamedTemporaryFile with dir="/tmp", chmod it to 644, then mv it over
HOSTS_FILE.  The sequence is embedded as a step descriptor list. -/

inductive WriteStep where
  | writeTemp (dir : String)
  | chmodTemp (mode : String)
  | moveOver (dest : String)
deriving Repr, DecidableEq

/-- The side-effect sequence of lines 225-231. -/
def writeSteps : List WriteStep :=
  [.writeTemp "/tmp", .chmodTemp "644", .moveOver HOSTS_FILE]

/-- os.path.dirname for the absolute paths involved: everything before
the final slash. -/
def dirnameOf (s : String) : String :=
  ⟨(s.data.reverse.dropWhile (· ≠ '/')).reverse.dropLast⟩

/-- The directory the temporary file is created in (the dir argument of
line 225). -/
def tempDirUsed : String := "/tmp"

/-- The claim that the temporary file always lives on the target file's
filesystem: under every assignment of filesystems to directories, the
temp directory and the target's directory map to the same filesystem. -/
def tempOnTargetFilesystem : Prop :=
  ∀ fs : String → Nat, fs tempDirUsed = fs (dirnameOf HOSTS_FILE)

/-! ## ensure_managed_section_exists (lines 77-98)

Operates on raw file content; marker presence is Python substring
membership (line 87), and the fallback appends "\n" + begin + "\n" + end
+ "\n" at end of file (line 90). -/

/-- The appended marker block of line 90. -/
def markerBlock : List Char :=
  '\n' :: BEGIN_BLOCK.data ++ '\n' :: END_BLOCK.data ++ ['\n']

/-- ensure_managed_section_exists on the contents of an existing file:
a no-op when both markers occur as substrings, otherwise the marker block
is appended. -/
def ensure_managed_section_exists (contents : List Char) : List Char :=
  if occursB BEGIN_BLOCK.data contents && occursB END_BLOCK.data contents then
    contents
  else
    contents ++ markerBlock

/-! ## parse_time_interval (lines 32-49) -/

/-- The units table of line 34. -/
def unitVal (c : Char) : Option Nat :=
  if c = 's' then some 1
  else if c = 'm' then some 60
  else if c = 'h' then some 3600
  else if c = 'd' then some 86400
  else none

/-- Digit run with single underscores between digits, the core of
Python's int() literal syntax (ASCII decimal). -/
def digitsUAux (acc : Nat) (afterUnd : Bool) : List Char → Option Nat
  | [] => if afterUnd then none else some acc
  | c :: rest =>
      if c = '_' then
        if afterUnd then none else digitsUAux acc true rest
      else if c.isDigit then digitsUAux (acc * 10 + (c.toNat - 48)) false rest
      else none

/-- Parse a digit sequence (with legal underscores) to its value. -/
def parseDigitsU : List Char → Option Nat
  | [] => none
  | d :: rest => if d.isDigit then digitsUAux (d.toNat - 48) false rest else none

/-- The value of a plain decimal digit sequence. -/
def digitsToNat (ds : List Char) : Nat :=
  ds.foldl (fun a c => a * 10 + (c.toNat - 48)) 0

/-- Python int() on an ASCII decimal string: optional surrounding
whitespace, an optional sign, then digits with underscores between
digits. -/
def pyInt (cs : List Char) : Option Int :=
  match pyStripChars cs with
  | [] => none
  | c :: rest =>
      if c = '+' then (parseDigitsU rest).map Int.ofNat
      else if c = '-' then (parseDigitsU rest).map (fun n => -(n : Int))
      else (parseDigitsU (c :: rest)).map Int.ofNat

/-- parse_time_interval (lines 32-49): reject strings shorter than two
characters; lowercase the final character and look it up in the units
table; parse the rest with int(); reject non-positive values; otherwise
return value times unit.  Failures (raised ValueError) are none. -/
def parse_time_interval (s : String) : Option Int :=
  if s.data.length < 2 then none
  else
    match s.data.getLast? with
    | none => none
    | some c =>
        match unitVal (pyLower c) with
        | none => none
        | some u =>
            match pyInt s.data.dropLast with
            | none => none
            | some v => if v ≤ 0 then none else some (v * (u : Int))

/-! ## Reconciliation Coordinator (UPDATE_LOCK and
update_hosts_file_async, lines 22 and 250-259)

update_hosts_file_async wraps the pipeline in async with UPDATE_LOCK.
asyncio.Lock semantics: an acquire on an unlocked lock with no waiters
succeeds immediately; otherwise the acquiring task is appended to a FIFO
wait queue and blocks; a release hands the lock to the first waiter,
which then proceeds.  The coordinator is embedded as the induced state
machine: inFlight counts pipeline executions currently holding the lock,
waiting counts triggers blocked on acquire, started counts pipeline
executions begun so far. -/

structure CoordState where
  inFlight : Nat
  waiting : Nat
  started : Nat
deriving Repr, DecidableEq

/-- Coordinator events: a trigger (lifecycle event or periodic tick)
calling update_hosts_file_async, or the completion of the in-flight
pipeline execution (releasing UPDATE_LOCK). -/
inductive CoordEv where
  | trigger
  | finish
deriving Repr, DecidableEq

/-- One step of the lock-induced state machine.  A trigger acquires the
free lock and starts the pipeline, or else joins the wait queue; a finish
releases the lock, and hands it straight to the first waiter, whose
pipeline execution then starts. -/
def coordStep (st : CoordState) : CoordEv → CoordState
  | .trigger =>
      if st.inFlight = 0 ∧ st.waiting = 0 then
        { inFlight := 1, waiting := 0, started := st.started + 1 }
      else
        { st with waiting := st.waiting + 1 }
  | .finish =>
      if st.inFlight = 0 then st
      else if st.waiting = 0 then { st with inFlight := 0 }
      else { inFlight := 1, waiting := st.waiting - 1, started := st.started + 1 }

/-- Run a sequence of coordinator events from a state. -/
def coordRun (st : CoordState) (evs : List CoordEv) : CoordState :=
  evs.foldl coordStep st

/-- The idle initial state. -/
def coordInit : CoordState := ⟨0, 0, 0⟩

/-- The synthesizer-state invariant: the seen_ips component is exactly
the IPs of the emitted entries, those IPs are pairwise distinct, and
every emitted entry has a duplicate-free name list. -/
def SynthInv (st : SynthState) : Prop :=
  st.2 = st.1.map HostEntry.ipAddress ∧
  (st.1.map HostEntry.ipAddress).Nodup ∧
  ∀ en ∈ st.1, en.names.Nodup

/-! ## General helper lemmas -/

theorem foldl_preserves {α σ : Type _} (f : σ → α → σ) (P : σ → Prop)
    (hf : ∀ s a, P s → P (f s a)) :
    ∀ (l : List α) (s : σ), P s → P (l.foldl f s)
  | [], _, hs => hs
  | a :: t, s, hs => foldl_preserves f P hf t (f s a) (hf s a hs)

theorem coordStep_inFlight_le (st : CoordState) (ev : CoordEv)
    (h : st.inFlight ≤ 1) : (coordStep st ev).inFlight ≤ 1 := by
  cases ev <;> simp only [coordStep] <;> split <;> (try split) <;> simp_all

/-! ## Claim theorems -/

/-- C2 counterexample.  The claim says a trigger arriving while a
reconciliation is in flight is dropped without queueing or blocking.  In
the lock-induced coordinator state machine, a trigger arriving with one
execution in flight changes the state (it joins the UPDATE_LOCK wait
queue), and the three-event trace trigger-trigger-finish starts two
pipeline executions even though its second trigger arrived mid-flight —
under the claim it would start exactly one. -/
theorem coordinator_drops_claim_false :
    coordStep ⟨1, 0, 1⟩ CoordEv.trigger ≠ ⟨1, 0, 1⟩ ∧
    (coordRun coordInit [CoordEv.trigger, CoordEv.trigger, CoordEv.finish]).started = 2 := by
  constructor
  · decide
  · decide

/-- C2 (amended): at most one pipeline execution is ever in flight (the
lock serializes the pipeline), but a trigger arriving while one is
running is not dropped: it blocks in the lock's FIFO wait queue, and when
the in-flight execution finishes the queued trigger starts its own
pipeline execution. -/
theorem coordinator_serializes_and_queues :
    (∀ evs : List CoordEv, (coordRun coordInit evs).inFlight ≤ 1) ∧
    (∀ st : CoordState, 1 ≤ st.inFlight →
      coordStep st CoordEv.trigger = { st with waiting := st.waiting + 1 }) ∧
    (∀ st : CoordState, st.inFlight = 1 →
      (coordStep (coordStep st CoordEv.trigger) CoordEv.finish).started = st.started + 1 ∧
      (coordStep (coordStep st CoordEv.trigger) CoordEv.finish).inFlight = 1) := by
  refine ⟨fun evs => ?_, fun st h => ?_, fun st h => ?_⟩
  · exact foldl_preserves coordStep (fun s => s.inFlight ≤ 1)
      coordStep_inFlight_le evs coordInit (by decide)
  · simp only [coordStep]
    split
    · omega
    · rfl
  · obtain ⟨f, w, s⟩ := st
    simp only at h
    subst h
    simp [coordStep]

/-- C2 witness: the amended theorem applied at a concrete trace and a
concrete mid-flight state. -/
theorem coordinator_serializes_and_queues_witness :
    (coordRun coordInit [CoordEv.trigger, CoordEv.trigger]).inFlight ≤ 1 ∧
    coordStep ⟨1, 2, 5⟩ CoordEv.trigger = ⟨1, 3, 5⟩ ∧
    (coordStep (coordStep ⟨1, 2, 5⟩ CoordEv.trigger) CoordEv.finish).started = 6 :=
  ⟨coordinator_serializes_and_queues.1 [CoordEv.trigger, CoordEv.trigger],
   coordinator_serializes_and_queues.2.1 ⟨1, 2, 5⟩ (by decide),
   (coordinator_serializes_and_queues.2.2 ⟨1, 2, 5⟩ (by decide)).1⟩

/-- C4 counterexample.  The claim says the temporary file always lives on
the target file's filesystem.  The source pins the temporary directory to
/tmp (line 225) while the target is /etc/hosts; under a mount assignment
that places /tmp and /etc on different filesystems the guarantee fails,
so the code does not ensure it. -/
theorem temp_file_same_filesystem_claim_false : ¬ tempOnTargetFilesystem := by
  intro h
  have h2 := h (fun d => if d = "/tmp" then 0 else 1)
  revert h2
  decide

/-- C4 (amended): the writer's side-effect sequence first writes the
complete new content to a temporary file in /tmp, then fixes its
permissions to mode 644, and only then moves it over the target path with
mv; /tmp is not the target file's directory, so nothing ties the
temporary file to the target's filesystem and the move is an atomic
rename only when the deployment happens to mount both on one
filesystem. -/
theorem write_steps_temp_then_move :
    writeSteps.take 1 = [WriteStep.writeTemp tempDirUsed] ∧
    writeSteps.getLast? = some (WriteStep.moveOver HOSTS_FILE) ∧
    WriteStep.chmodTemp "644" ∈ writeSteps ∧
    dirnameOf HOSTS_FILE = "/etc" ∧
    tempDirUsed ≠ dirnameOf HOSTS_FILE := by
  refine ⟨rfl, rfl, ?_, ?_, ?_⟩ <;> decide

/-- C9: an attachment whose derived candidate-name list is empty (empty
container name, empty configured hostname, no aliases) emits no HostEntry
and does not claim its IP address: the synthesizer's output on an
inventory starting with such a container equals its output with that
container removed, and in particular a later attachment with the same IP
still produces the entry for that IP. -/
theorem empty_names_do_not_claim_ip :
    (∀ (domainBase netName ip : String) (rest : List Container),
      synthEntries domainBase (⟨"", "", [⟨netName, ip, []⟩]⟩ :: rest) =
        synthEntries domainBase rest) ∧
    synthEntries "base.domain"
        [⟨"", "", [⟨"net", "10.0.0.5", []⟩]⟩, ⟨"/web", "", [⟨"net", "10.0.0.5", []⟩]⟩] =
      [⟨"10.0.0.5", ["web", "web.base.domain"]⟩] := by
  constructor
  · intro domainBase netName ip rest
    have hstep : processContainer domainBase ([], []) ⟨"", "", [⟨netName, ip, []⟩]⟩ = ([], []) := by
      simp [processContainer, processNetwork, processAtt, buildHostnames, lstripSlash]
    simp [synthEntries, List.foldl_cons, hstep]
  · decide

/-- C1 counterexample.  The claim says a RuntimeUnavailable or
InventoryParseError failure leaves the target file, including the body of
its managed section, exactly as it was.  On a file whose managed section
holds one entry, a timeout during the inventory query yields a pass that
rewrites the file with the section body emptied: the failure branches of
get_docker_container_hosts return the empty entry list (lines 112, 126,
189, 192, 195) and update_hosts_file proceeds with it. -/
theorem failure_skip_claim_false :
    reconcile_cycle "base.domain" InventoryResult.timeoutExpired
        ["# BEGIN DOCKER CONTAINERS\n", "10.0.0.5 web web.base.domain\n",
         "# END DOCKER CONTAINERS\n"] =
      some ["# BEGIN DOCKER CONTAINERS\n", "# END DOCKER CONTAINERS\n"] ∧
    reconcile_cycle "base.domain" InventoryResult.timeoutExpired
        ["# BEGIN DOCKER CONTAINERS\n", "10.0.0.5 web web.base.domain\n",
         "# END DOCKER CONTAINERS\n"] ≠
      some ["# BEGIN DOCKER CONTAINERS\n", "10.0.0.5 web web.base.domain\n",
            "# END DOCKER CONTAINERS\n"] := by
  constructor
  · decide
  · decide

/-- C1 (amended): during steady-state reconciliation a RuntimeUnavailable
or InventoryParseError failure (engine unreachable, failing list or
inspect command, query timeout, or undecodable inspect output) does not
abort the pass: the pass proceeds with an empty entry list, so the marker
lines and every line outside the managed section are kept unchanged while
the body of the managed section is emptied. -/
theorem failure_proceeds_with_empty_entries :
    ∀ (domainBase : String) (lines : List String) (s e : Nat),
      findIdxO isBeginLine lines = some s →
      findIdxO isEndLine lines = some e →
      ∀ inv ∈ [InventoryResult.listFailed, InventoryResult.inspectFailed,
               InventoryResult.timeoutExpired, InventoryResult.jsonError],
        reconcile_cycle domainBase inv lines =
          some (lines.take (s + 1) ++ lines.drop e) := by
  intro domainBase lines s e hb he inv hinv
  fin_cases hinv <;>
    simp [reconcile_cycle, get_docker_container_hosts, update_hosts_file, hb, he]

/-- C1 witness: the amended theorem applied to a concrete three-line
hosts file and the timeout failure. -/
theorem failure_proceeds_with_empty_entries_witness :
    reconcile_cycle "base.domain" InventoryResult.timeoutExpired
        ["# BEGIN DOCKER CONTAINERS\n", "10.0.0.5 web web.base.domain\n",
         "# END DOCKER CONTAINERS\n"] =
      some ((["# BEGIN DOCKER CONTAINERS\n", "10.0.0.5 web web.base.domain\n",
              "# END DOCKER CONTAINERS\n"] : List String).take 1 ++
            (["# BEGIN DOCKER CONTAINERS\n", "10.0.0.5 web web.base.domain\n",
              "# END DOCKER CONTAINERS\n"] : List String).drop 2) :=
  failure_proceeds_with_empty_entries "base.domain"
    ["# BEGIN DOCKER CONTAINERS\n", "10.0.0.5 web web.base.domain\n",
     "# END DOCKER CONTAINERS\n"] 0 2 (by decide) (by decide)
    InventoryResult.timeoutExpired (by decide)

/-! ## Interval-parsing lemmas (C8) -/

theorem not_space_of_digit (c : Char) (h : c.isDigit = true) :
    pyIsSpace c = false := by
  by_contra h2
  simp only [Bool.not_eq_false, pyIsSpace, Bool.or_eq_true, decide_eq_true_eq] at h2
  rcases h2 with ((((rfl | rfl) | rfl) | rfl) | rfl) | rfl <;> exact absurd h (by decide)

theorem dropWhile_eq_self_of_all {α : Type _} (p : α → Bool) (l : List α)
    (h : ∀ c ∈ l, p c = false) : l.dropWhile p = l := by
  cases l with
  | nil => rfl
  | cons a t => simp [List.dropWhile_cons, h a (List.mem_cons_self a t)]

theorem pyStripChars_of_no_space (cs : List Char)
    (h : ∀ c ∈ cs, pyIsSpace c = false) : pyStripChars cs = cs := by
  unfold pyStripChars
  rw [dropWhile_eq_self_of_all _ _ h,
      dropWhile_eq_self_of_all _ _ (fun c hc => h c (List.mem_reverse.mp hc)),
      List.reverse_reverse]

theorem digitsUAux_all_digits (ds : List Char) :
    ∀ acc : Nat, (∀ c ∈ ds, c.isDigit = true) →
      digitsUAux acc false ds =
        some (ds.foldl (fun a c => a * 10 + (c.toNat - 48)) acc) := by
  induction ds with
  | nil => intro acc _; rfl
  | cons c t ih =>
      intro acc h
      have hc : c.isDigit = true := h c (List.mem_cons_self c t)
      have hne : ¬ c = '_' := by rintro rfl; exact absurd hc (by decide)
      simp only [digitsUAux, if_neg hne, if_pos hc, List.foldl_cons]
      exact ih _ (fun x hx => h x (List.mem_cons_of_mem c hx))

theorem pyInt_all_digits (ds : List Char) (hne : ds ≠ [])
    (h : ∀ c ∈ ds, c.isDigit = true) :
    pyInt ds = some (Int.ofNat (digitsToNat ds)) := by
  have hstrip : pyStripChars ds = ds :=
    pyStripChars_of_no_space ds (fun c hc => not_space_of_digit c (h c hc))
  cases ds with
  | nil => exact absurd rfl hne
  | cons d t =>
      have hd : d.isDigit = true := h d (List.mem_cons_self d t)
      have hplus : ¬ d = '+' := by rintro rfl; exact absurd hd (by decide)
      have hminus : ¬ d = '-' := by rintro rfl; exact absurd hd (by decide)
      simp only [pyInt, hstrip, if_neg hplus, if_neg hminus, parseDigitsU, if_pos hd]
      rw [digitsUAux_all_digits t (d.toNat - 48)
            (fun x hx => h x (List.mem_cons_of_mem d hx))]
      simp [digitsToNat, List.foldl_cons]

/-- C8 counterexample.  The claim says every string other than a positive
integer followed by one of the units s, m, h, d fails, yet the source
lowercases the final character before the unit lookup (line 39), so the
string 5S — whose final character is none of s, m, h, d — parses
successfully to 5. -/
theorem interval_parsing_claim_false :
    parse_time_interval "5S" = some 5 ∧ ('S' ∈ ['s', 'm', 'h', 'd']) = False := by
  constructor
  · decide
  · decide

/-- C8 (amended): interval parsing maps 30s to 30, 5m to 300, 1h to 3600
and 1d to 86400 seconds, and fails on each of 0s, abc, 5x and the empty
string; in general a positive decimal integer followed by a unit
character whose lowercase form is one of s, m, h, d yields that integer
times the unit length, and every successfully parsed string consists of a
final unit character that lowercases into the units table preceded by a
numeric part that Python int() accepts (which also allows surrounding
whitespace, a leading sign and underscores between digits) with a
positive value. -/
theorem interval_parsing_amended :
    (parse_time_interval "30s" = some 30 ∧ parse_time_interval "5m" = some 300 ∧
     parse_time_interval "1h" = some 3600 ∧ parse_time_interval "1d" = some 86400 ∧
     parse_time_interval "0s" = none ∧ parse_time_interval "abc" = none ∧
     parse_time_interval "5x" = none ∧ parse_time_interval "" = none) ∧
    (∀ (ds : List Char) (u : Char) (k : Nat),
      ds ≠ [] → (∀ c ∈ ds, c.isDigit = true) → 0 < digitsToNat ds →
      unitVal (pyLower u) = some k →
      parse_time_interval ⟨ds ++ [u]⟩ = some ((digitsToNat ds : Int) * (k : Int))) ∧
    (∀ (s : String) (v : Int), parse_time_interval s = some v →
      ∃ (core : List Char) (u : Char) (k : Nat) (n : Int),
        s.data = core ++ [u] ∧ unitVal (pyLower u) = some k ∧
        pyInt core = some n ∧ 0 < n ∧ v = n * (k : Int)) := by
  refine ⟨⟨by decide, by decide, by decide, by decide, by decide, by decide,
           by decide, by decide⟩, ?_, ?_⟩
  · intro ds u k hne hdig hpos hunit
    have hlen : ¬ (⟨ds ++ [u]⟩ : String).data.length < 2 := by
      cases ds with
      | nil => exact absurd rfl hne
      | cons a t => simp [List.length_append, List.length_cons]
    have hlast : (⟨ds ++ [u]⟩ : String).data.getLast? = some u :=
      List.getLast?_concat ds
    have hdrop : (⟨ds ++ [u]⟩ : String).data.dropLast = ds := List.dropLast_concat
    have hngt : ¬ (Int.ofNat (digitsToNat ds) ≤ 0) := by
      simp only [Int.ofNat_eq_coe, not_le]
      exact_mod_cast hpos
    simp [parse_time_interval, hlen, hlast, hunit, hdrop,
          pyInt_all_digits ds hne hdig, hngt]
    constructor
    · cases ds with
      | nil => exact absurd rfl hne
      | cons a t => simp
    · omega
  · intro s v hp
    unfold parse_time_interval at hp
    split at hp
    · exact absurd hp (by simp)
    split at hp
    · exact absurd hp (by simp)
    rename_i u hlast
    split at hp
    · exact absurd hp (by simp)
    rename_i k hunit
    split at hp
    · exact absurd hp (by simp)
    rename_i n hint
    split at hp
    · exact absurd hp (by simp)
    rename_i hle
    obtain ⟨core, hcore⟩ := List.getLast?_eq_some_iff.mp hlast
    simp only [Option.some.injEq] at hp
    refine ⟨core, u, k, n, hcore, hunit, ?_, by omega, hp.symm⟩
    rw [hcore, List.dropLast_concat] at hint
    exact hint

/-- C8 witness: the amended theorem's general rule applied to the digits
30 with unit s, and its soundness direction applied to the parse of
30s. -/
theorem interval_parsing_amended_witness :
    parse_time_interval ⟨['3', '0'] ++ ['s']⟩ =
      some ((digitsToNat ['3', '0'] : Int) * (1 : Int)) ∧
    ∃ (core : List Char) (u : Char) (k : Nat) (n : Int),
      ("30s" : String).data = core ++ [u] ∧ unitVal (pyLower u) = some k ∧
      pyInt core = some n ∧ 0 < n ∧ (30 : Int) = n * (k : Int) :=
  ⟨interval_parsing_amended.2.1 ['3', '0'] 's' 1 (by decide) (by decide)
      (by decide) (by decide),
   interval_parsing_amended.2.2 "30s" 30 (by decide)⟩

/-! ## File-writer lemmas (C3, C10) -/

theorem findIdxO_lt {α : Type _} (p : α → Bool) :
    ∀ (l : List α) (i : Nat), findIdxO p l = some i → i < l.length := by
  intro l
  induction l with
  | nil => intro i h; simp [findIdxO] at h
  | cons a t ih =>
      intro i h
      simp only [findIdxO] at h
      by_cases hp : p a
      · simp only [hp, if_true, Option.some.injEq] at h
        subst h
        simp
      · simp only [hp, if_false] at h
        cases ht : findIdxO p t with
        | none => rw [ht] at h; exact absurd h (by simp)
        | some j =>
            rw [ht] at h
            simp at h
            have := ih j ht
            simp only [List.length_cons]
            omega

theorem findIdxO_unique {α : Type _} (p : α → Bool) :
    ∀ (l : List α) (s : Nat), s < l.length →
      (∀ i (h : i < l.length), p (l.get ⟨i, h⟩) = true ↔ i = s) →
      findIdxO p l = some s := by
  intro l
  induction l with
  | nil => intro s hs _; simp at hs
  | cons a t ih =>
      intro s hs hiff
      cases s with
      | zero =>
          have hpa : p a = true := (hiff 0 (by simp)).mpr rfl
          simp [findIdxO, hpa]
      | succ k =>
          have hpa : p a = false := by
            by_contra hc
            have hpa : p a = true := by
              cases hqa : p a
              · exact absurd hqa hc
              · rfl
            have := (hiff 0 (by simp)).mp hpa
            omega
          have ht : findIdxO p t = some k := by
            refine ih k ?_ ?_
            · simp only [List.length_cons] at hs; omega
            · intro i h
              have := hiff (i + 1) (by simp only [List.length_cons]; omega)
              simpa using this
          simp [findIdxO, hpa, ht]

/-- C3: for every target file containing exactly one begin-marker line
and one end-marker line, the begin before the end, the writer replaces
exactly the lines strictly between the markers with one rendered line per
entry, keeping everything up to and including the begin marker and
everything from the end marker on; and on the spec's concrete file with
the single entry it produces exactly the expected content. -/
theorem writer_replaces_between_markers (lines entries : List String) (s e : Nat)
    (hs : s < lines.length) (he : e < lines.length)
    (hbu : ∀ i (h : i < lines.length), isBeginLine (lines.get ⟨i, h⟩) = true ↔ i = s)
    (heu : ∀ i (h : i < lines.length), isEndLine (lines.get ⟨i, h⟩) = true ↔ i = e)
    (_hse : s < e) :
    update_hosts_file entries lines =
      some (lines.take (s + 1) ++ entries.map (fun en => en ++ "\n") ++ lines.drop e) ∧
    update_hosts_file_str ["10.0.0.5 test-nginx test-nginx.base.domain"]
        "A\n# BEGIN DOCKER CONTAINERS\nold\n# END DOCKER CONTAINERS\nB\n" =
      some "A\n# BEGIN DOCKER CONTAINERS\n10.0.0.5 test-nginx test-nginx.base.domain\n# END DOCKER CONTAINERS\nB\n" := by
  constructor
  · simp [update_hosts_file, findIdxO_unique isBeginLine lines s hs hbu,
          findIdxO_unique isEndLine lines e he heu]
  · decide

/-- C3 witness: the theorem applied to the spec's concrete five-line file
with its single entry. -/
theorem writer_replaces_between_markers_witness :
    update_hosts_file ["10.0.0.5 test-nginx test-nginx.base.domain"]
        ["A\n", "# BEGIN DOCKER CONTAINERS\n", "old\n", "# END DOCKER CONTAINERS\n", "B\n"] =
      some ((["A\n", "# BEGIN DOCKER CONTAINERS\n", "old\n", "# END DOCKER CONTAINERS\n",
              "B\n"] : List String).take 2 ++
            (["10.0.0.5 test-nginx test-nginx.base.domain"] : List String).map
              (fun en => en ++ "\n") ++
            (["A\n", "# BEGIN DOCKER CONTAINERS\n", "old\n", "# END DOCKER CONTAINERS\n",
              "B\n"] : List String).drop 3) :=
  (writer_replaces_between_markers
    ["A\n", "# BEGIN DOCKER CONTAINERS\n", "old\n", "# END DOCKER CONTAINERS\n", "B\n"]
    ["10.0.0.5 test-nginx test-nginx.base.domain"] 1 3
    (by decide) (by decide) (by decide) (by decide) (by decide)).1

/-- C10: when the first end-marker line precedes the first begin-marker
line, the writer does not fail: it reports success, the span from the
first end-marker line through the first begin-marker line (the segment
seg) appears twice in the written file, and the file grows by the length
of that span plus the entry count on every such write. -/
theorem writer_duplicates_on_reversed_markers (lines entries : List String)
    (s e : Nat) (hb : findIdxO isBeginLine lines = some s)
    (he : findIdxO isEndLine lines = some e) (hes : e < s) :
    ∃ seg : List String,
      seg = (lines.drop e).take (s + 1 - e) ∧
      update_hosts_file entries lines =
        some (lines.take e ++ seg ++ entries.map (fun en => en ++ "\n") ++
              seg ++ lines.drop (s + 1)) ∧
      seg.length = s + 1 - e ∧
      ∀ r : List String,
        update_hosts_file entries lines = some r →
        r.length = lines.length + (s + 1 - e) + entries.length ∧
        lines.length < r.length := by
  have hs' : s < lines.length := findIdxO_lt isBeginLine lines s hb
  have he' : e < lines.length := findIdxO_lt isEndLine lines e he
  have h1 : lines.take (s + 1) = lines.take e ++ (lines.drop e).take (s + 1 - e) := by
    have hsum : s + 1 = e + (s + 1 - e) := by omega
    conv_lhs => rw [hsum, List.take_add]
  have h2 : lines.drop e = (lines.drop e).take (s + 1 - e) ++ lines.drop (s + 1) := by
    conv_lhs => rw [← List.take_append_drop (s + 1 - e) (lines.drop e)]
    rw [List.drop_drop]
    congr 2
    omega
  have hseglen : ((lines.drop e).take (s + 1 - e)).length = s + 1 - e := by
    simp only [List.length_take, List.length_drop]
    omega
  have key : ∀ seg rest : List String,
      lines.take (s + 1) = lines.take e ++ seg →
      lines.drop e = seg ++ rest →
      lines.take (s + 1) ++ entries.map (fun en => en ++ "\n") ++ lines.drop e =
        lines.take e ++ seg ++ entries.map (fun en => en ++ "\n") ++ seg ++ rest := by
    intro seg rest k1 k2
    rw [k1, k2]
    simp [List.append_assoc]
  have hupd : update_hosts_file entries lines =
      some (lines.take e ++ (lines.drop e).take (s + 1 - e) ++
            entries.map (fun en => en ++ "\n") ++
            (lines.drop e).take (s + 1 - e) ++ lines.drop (s + 1)) := by
    simp only [update_hosts_file, hb, he]
    exact congrArg some
      (key ((lines.drop e).take (s + 1 - e)) (lines.drop (s + 1)) h1 h2)
  refine ⟨(lines.drop e).take (s + 1 - e), rfl, hupd, hseglen, ?_⟩
  intro r hr
  rw [hupd] at hr
  injection hr with hr
  subst hr
  simp only [List.length_append, List.length_take, List.length_drop,
             List.length_map]
  omega

/-- C10 witness: the theorem applied to a two-line file whose end marker
precedes its begin marker, with no entries; the write succeeds and the
file doubles from two lines to four. -/
theorem writer_duplicates_on_reversed_markers_witness :
    update_hosts_file []
        ["# END DOCKER CONTAINERS\n", "# BEGIN DOCKER CONTAINERS\n"] =
      some ["# END DOCKER CONTAINERS\n", "# BEGIN DOCKER CONTAINERS\n",
            "# END DOCKER CONTAINERS\n", "# BEGIN DOCKER CONTAINERS\n"] ∧
    (4 : Nat) = 2 + (1 + 1 - 0) + 0 := by
  obtain ⟨seg, hseg, hupd, hlen, hr⟩ :=
    writer_duplicates_on_reversed_markers
      ["# END DOCKER CONTAINERS\n", "# BEGIN DOCKER CONTAINERS\n"] [] 1 0
      (by decide) (by decide) (by decide)
  subst hseg
  exact ⟨hupd.trans (by decide), rfl⟩

/-! ## Synthesizer lemmas (C5, C6) -/

theorem dedup_foldl_nodup (l : List String) :
    ∀ acc : List String, acc.Nodup →
      (l.foldl (fun acc n => if n ∈ acc then acc else acc ++ [n]) acc).Nodup := by
  induction l with
  | nil => intro acc h; exact h
  | cons a t ih =>
      intro acc h
      simp only [List.foldl_cons]
      by_cases ha : a ∈ acc
      · rw [if_pos ha]; exact ih acc h
      · rw [if_neg ha]
        exact ih _ (by simp [List.nodup_append, h, List.disjoint_singleton, ha])

theorem dedupKeepFirst_nodup (l : List String) : (dedupKeepFirst l).Nodup :=
  dedup_foldl_nodup l [] (by simp)

theorem dedup_foldl_split (l : List String) :
    ∀ acc : List String,
      ∃ t : List String,
        l.foldl (fun acc n => if n ∈ acc then acc else acc ++ [n]) acc = acc ++ t ∧
        t.Sublist l := by
  induction l with
  | nil => intro acc; exact ⟨[], by simp, List.Sublist.refl []⟩
  | cons a t ih =>
      intro acc
      simp only [List.foldl_cons]
      by_cases ha : a ∈ acc
      · obtain ⟨u, hu, hs⟩ := ih acc
        exact ⟨u, by rw [if_pos ha]; exact hu, hs.cons a⟩
      · obtain ⟨u, hu, hs⟩ := ih (acc ++ [a])
        refine ⟨a :: u, ?_, hs.cons₂ a⟩
        rw [if_neg ha, hu, List.append_assoc]
        rfl

theorem dedup_foldl_mem (l : List String) :
    ∀ (acc : List String) (x : String),
      x ∈ l.foldl (fun acc n => if n ∈ acc then acc else acc ++ [n]) acc ↔
        x ∈ acc ∨ x ∈ l := by
  induction l with
  | nil => intro acc x; simp
  | cons a t ih =>
      intro acc x
      simp only [List.foldl_cons]
      by_cases ha : a ∈ acc
      · rw [if_pos ha, ih acc x]
        constructor
        · rintro (h | h)
          · exact Or.inl h
          · exact Or.inr (List.mem_cons_of_mem a h)
        · rintro (h | h)
          · exact Or.inl h
          · rcases List.mem_cons.mp h with rfl | h2
            · exact Or.inl ha
            · exact Or.inr h2
      · rw [if_neg ha, ih (acc ++ [a]) x]
        simp only [List.mem_append, List.mem_cons, List.not_mem_nil, or_false]
        tauto

theorem processAtt_preserves_inv (domainBase : String) (st : SynthState) (a : Att)
    (h : SynthInv st) : SynthInv (processAtt domainBase st a) := by
  obtain ⟨entries, seen⟩ := st
  obtain ⟨hseen, hnd, hnm⟩ := h
  dsimp only at hseen hnd hnm
  subst hseen
  unfold processAtt
  split
  · exact ⟨rfl, hnd, hnm⟩
  split
  · exact ⟨rfl, hnd, hnm⟩
  rename_i hskip _
  push_neg at hskip
  obtain ⟨hne, hnotin⟩ := hskip
  refine ⟨by simp, ?_, ?_⟩
  · simp only [List.map_append, List.map_cons, List.map_nil, List.nodup_append,
               List.disjoint_singleton]
    exact ⟨hnd, by simp, hnotin⟩
  · intro en hen
    rcases List.mem_append.mp hen with h2 | h2
    · exact hnm en h2
    · rcases List.mem_singleton.mp h2 with rfl
      exact dedupKeepFirst_nodup _

theorem processContainer_preserves_inv (domainBase : String) (st : SynthState)
    (c : Container) (h : SynthInv st) :
    SynthInv (processContainer domainBase st c) :=
  foldl_preserves _ SynthInv
    (fun s ni hs => processAtt_preserves_inv domainBase s
      ⟨ni.ipAddress, buildHostnames (lstripSlash c.rawName) c.hostname ni.aliases⟩ hs)
    c.networks st h

theorem synthState_inv (domainBase : String) (cs : List Container) :
    SynthInv (cs.foldl (processContainer domainBase) ([], [])) :=
  foldl_preserves _ SynthInv
    (fun s c hs => processContainer_preserves_inv domainBase s c hs)
    cs ([], []) ⟨rfl, by simp, by simp⟩

/-- C5: for every inventory snapshot the synthesizer's output satisfies
both uniqueness invariants: no two emitted HostEntry records share an IP
address, within any single entry's name list no name appears twice, and
the per-entry deduplication keeps the names in order of first appearance
(its result is an order-preserving sublist of the candidate sequence with
the same members). -/
theorem synthesizer_uniqueness :
    (∀ (domainBase : String) (cs : List Container),
      ((synthEntries domainBase cs).map HostEntry.ipAddress).Nodup) ∧
    (∀ (domainBase : String) (cs : List Container) (en : HostEntry),
      en ∈ synthEntries domainBase cs → en.names.Nodup) ∧
    (∀ l : List String,
      (dedupKeepFirst l).Sublist l ∧ ∀ x, x ∈ dedupKeepFirst l ↔ x ∈ l) := by
  refine ⟨?_, ?_, ?_⟩
  · intro domainBase cs
    exact (synthState_inv domainBase cs).2.1
  · intro domainBase cs en hen
    exact (synthState_inv domainBase cs).2.2 en hen
  · intro l
    constructor
    · obtain ⟨t, ht, hs⟩ := dedup_foldl_split l []
      unfold dedupKeepFirst
      rw [ht]
      simpa using hs
    · intro x
      unfold dedupKeepFirst
      rw [dedup_foldl_mem l [] x]
      simp

/-- C5 witness: the uniqueness facts evaluated on a concrete two-network
snapshot that repeats the same IP. -/
theorem synthesizer_uniqueness_witness :
    ((synthEntries "base.domain"
        [⟨"/a", "h", [⟨"n1", "10.0.0.5", ["a"]⟩, ⟨"n2", "10.0.0.5", []⟩]⟩]).map
      HostEntry.ipAddress).Nodup ∧
    (⟨"10.0.0.5", ["a", "a.base.domain", "h", "h.base.domain"]⟩ : HostEntry).names.Nodup ∧
    (dedupKeepFirst ["a", "b", "a"]).Sublist ["a", "b", "a"] :=
  ⟨synthesizer_uniqueness.1 "base.domain"
      [⟨"/a", "h", [⟨"n1", "10.0.0.5", ["a"]⟩, ⟨"n2", "10.0.0.5", []⟩]⟩],
   synthesizer_uniqueness.2.1 "base.domain"
      [⟨"/a", "h", [⟨"n1", "10.0.0.5", ["a"]⟩, ⟨"n2", "10.0.0.5", []⟩]⟩]
      ⟨"10.0.0.5", ["a", "a.base.domain", "h", "h.base.domain"]⟩ (by decide),
   (synthesizer_uniqueness.2.2 ["a", "b", "a"]).1⟩

theorem processContainer_eq_attFold (domainBase : String) (st : SynthState)
    (c : Container) :
    processContainer domainBase st c =
      (attsOfContainer c).foldl (processAtt domainBase) st := by
  unfold processContainer attsOfContainer
  rw [List.foldl_map]
  rfl

theorem synth_foldl_eq_attFold (domainBase : String) :
    ∀ (cs : List Container) (st : SynthState),
      cs.foldl (processContainer domainBase) st =
        (flattenAtts cs).foldl (processAtt domainBase) st := by
  intro cs
  induction cs with
  | nil => intro st; rfl
  | cons c rest ih =>
      intro st
      simp only [List.foldl_cons, flattenAtts, List.map_cons, List.flatten_cons,
                 List.foldl_append]
      rw [processContainer_eq_attFold]
      exact ih _

theorem find?_entries_none_of_not_mem (p : String) (entries : List HostEntry)
    (h : p ∉ entries.map HostEntry.ipAddress) :
    entries.find? (fun en => en.ipAddress == p) = none := by
  rw [List.find?_eq_none]
  intro en hen hq
  exact h (List.mem_map.mpr ⟨en, hen, by simpa using hq⟩)

theorem processAtt_skipA (domainBase : String) (st : SynthState) (a : Att)
    (h1 : a.ip = "" ∨ a.ip ∈ st.2) : processAtt domainBase st a = st := by
  unfold processAtt
  rw [if_pos h1]

theorem processAtt_skipB (domainBase : String) (st : SynthState) (a : Att)
    (h1 : ¬ (a.ip = "" ∨ a.ip ∈ st.2)) (h2 : a.hostnames = []) :
    processAtt domainBase st a = st := by
  unfold processAtt
  rw [if_neg h1, if_pos h2]

theorem processAtt_emit (domainBase : String) (st : SynthState) (a : Att)
    (h1 : ¬ (a.ip = "" ∨ a.ip ∈ st.2)) (h2 : ¬ a.hostnames = []) :
    processAtt domainBase st a =
      (st.1 ++ [HostEntry.mk a.ip (entryNames domainBase a.hostnames)], st.2 ++ [a.ip]) := by
  unfold processAtt
  rw [if_neg h1, if_neg h2]

theorem attFold_find_stable (domainBase p : String) :
    ∀ (atts : List Att) (st : SynthState),
      st.2 = st.1.map HostEntry.ipAddress → p ∈ st.2 →
      ((atts.foldl (processAtt domainBase) st).1.find? (fun en => en.ipAddress == p)) =
        st.1.find? (fun en => en.ipAddress == p) := by
  intro atts
  induction atts with
  | nil => intro st _ _; rfl
  | cons a rest ih =>
      intro st hseen hp
      simp only [List.foldl_cons]
      by_cases h1 : a.ip = "" ∨ a.ip ∈ st.2
      · rw [processAtt_skipA domainBase st a h1]
        exact ih st hseen hp
      · by_cases h2 : a.hostnames = []
        · rw [processAtt_skipB domainBase st a h1 h2]
          exact ih st hseen hp
        · rw [processAtt_emit domainBase st a h1 h2]
          push_neg at h1
          obtain ⟨hne, hnotin⟩ := h1
          have hip : a.ip ≠ p := fun hdeq => hnotin (hdeq ▸ hp)
          rw [ih (st.1 ++ [HostEntry.mk a.ip (entryNames domainBase a.hostnames)], st.2 ++ [a.ip])
                (by simp [hseen]) (List.mem_append.mpr (Or.inl hp))]
          rw [List.find?_append]
          cases hf : st.1.find? (fun en => en.ipAddress == p) with
          | some x => rfl
          | none =>
              simp only [Option.or]
              have hbeq : (a.ip == p) = false := by simp [hip]
              simp [hbeq]

theorem attFold_find_unclaimed (domainBase p : String) :
    ∀ (atts : List Att) (st : SynthState),
      st.2 = st.1.map HostEntry.ipAddress → p ∉ st.2 →
      ((atts.foldl (processAtt domainBase) st).1.find? (fun en => en.ipAddress == p)) =
        (atts.find? (qualifies p)).map (attEmits domainBase) := by
  intro atts
  induction atts with
  | nil =>
      intro st hseen hp
      simp only [List.foldl_nil, List.find?_nil, Option.map_none]
      exact find?_entries_none_of_not_mem p st.1 (hseen ▸ hp)
  | cons a rest ih =>
      intro st hseen hp
      simp only [List.foldl_cons]
      by_cases h1 : a.ip = "" ∨ a.ip ∈ st.2
      · rw [processAtt_skipA domainBase st a h1]
        have hq : qualifies p a = false := by
          rcases h1 with h1 | h1
          · simp [qualifies, h1]
          · have : a.ip ≠ p := fun hdeq => hp (hdeq ▸ h1)
            simp [qualifies, this]
        simp only [List.find?_cons, hq]
        exact ih st hseen hp
      · by_cases h2 : a.hostnames = []
        · rw [processAtt_skipB domainBase st a h1 h2]
          have hq : qualifies p a = false := by simp [qualifies, h2]
          simp only [List.find?_cons, hq]
          exact ih st hseen hp
        · rw [processAtt_emit domainBase st a h1 h2]
          push_neg at h1
          obtain ⟨hne, hnotin⟩ := h1
          by_cases h3 : a.ip = p
          · subst h3
            have hq : qualifies a.ip a = true := by
              simp [qualifies, hne, h2]
            rw [attFold_find_stable domainBase a.ip rest
                  (st.1 ++ [HostEntry.mk a.ip (entryNames domainBase a.hostnames)], st.2 ++ [a.ip])
                  (by simp [hseen]) (List.mem_append.mpr (Or.inr (by simp)))]
            rw [List.find?_append,
                find?_entries_none_of_not_mem a.ip st.1 (hseen ▸ hnotin)]
            simp only [Option.or, List.find?_cons, hq]
            simp [List.find?, attEmits]
          · have hq : qualifies p a = false := by simp [qualifies, h3]
            simp only [List.find?_cons, hq]
            refine ih (st.1 ++ [HostEntry.mk a.ip (entryNames domainBase a.hostnames)], st.2 ++ [a.ip])
              (by simp [hseen]) ?_
            simp only [List.mem_append, List.mem_singleton]
            rintro (h | h)
            · exact hp h
            · exact h3 h.symm

/-- C6 counterexample.  The claim says the first attachment carrying a
duplicated IP claims it and the resulting entry's names come only from
that first attachment.  With a first attachment that derives no candidate
names (empty container name, empty hostname, no aliases) and a second
attachment with the same IP, the emitted entry's names come from the
second attachment, while the first derives none. -/
theorem first_claim_wins_claim_false :
    synthEntries "base.domain"
        [⟨"", "", [⟨"net", "10.0.0.5", []⟩]⟩,
         ⟨"/web", "", [⟨"net", "10.0.0.5", []⟩]⟩] =
      [⟨"10.0.0.5", ["web", "web.base.domain"]⟩] ∧
    entryNames "base.domain" (buildHostnames (lstripSlash "") "" []) = [] ∧
    (["web", "web.base.domain"] : List String) ≠ [] := by
  refine ⟨by decide, by decide, by decide⟩

/-- C6 (amended): for every inventory and IP address p, the synthesized
entry carrying p (if any) is exactly the one derived from the first
attachment, in container order then network order, that carries p with a
non-empty IP and a non-empty derived hostnames list; all later
attachments with that IP are dropped, not merged.  On the spec's example
of two attachments sharing 10.0.0.5 the resulting entry's names come only
from the first. -/
theorem first_claim_wins_amended :
    (∀ (domainBase : String) (cs : List Container) (p : String),
      (synthEntries domainBase cs).find? (fun en => en.ipAddress == p) =
        ((flattenAtts cs).find? (qualifies p)).map (attEmits domainBase)) ∧
    synthEntries "base.domain"
        [⟨"/a", "", [⟨"n", "10.0.0.5", []⟩]⟩, ⟨"/b", "", [⟨"n", "10.0.0.5", []⟩]⟩] =
      [⟨"10.0.0.5", ["a", "a.base.domain"]⟩] := by
  constructor
  · intro domainBase cs p
    unfold synthEntries
    rw [synth_foldl_eq_attFold]
    exact attFold_find_unclaimed domainBase p (flattenAtts cs) ([], []) rfl
      (by simp)
  · decide

/-! ## Marker-ensure lemmas (C7) -/

theorem isPre_iff_take : ∀ (p l : List Char), isPre p l = true ↔ l.take p.length = p := by
  intro p
  induction p with
  | nil => intro l; simp [isPre]
  | cons a p' ih =>
      intro l
      cases l with
      | nil => simp [isPre]
      | cons b t =>
          simp only [isPre, Bool.and_eq_true, decide_eq_true_eq, ih,
                     List.length_cons, List.take_succ_cons, List.cons.injEq]
          constructor
          · rintro ⟨rfl, h⟩
            exact ⟨rfl, h⟩
          · rintro ⟨rfl, h⟩
            exact ⟨rfl, h⟩

theorem occursB_false_all (p : List Char) :
    ∀ s : List Char, occursB p s = false → ∀ i, isPre p (s.drop i) = false := by
  intro s
  induction s with
  | nil => intro h i; simpa [occursB] using h
  | cons c t ih =>
      intro h i
      simp only [occursB, Bool.or_eq_false_iff] at h
      cases i with
      | zero => exact h.1
      | succ j => exact ih h.2 j

theorem isPre_of_long (p t u : List Char) (h : isPre p (t ++ u) = true)
    (hlen : p.length ≤ t.length) : isPre p t = true := by
  rw [isPre_iff_take] at h ⊢
  rwa [List.take_append_of_le_length hlen] at h

theorem mem_of_isPre_crossing (p t : List Char) (c : Char) (u : List Char)
    (h : isPre p (t ++ c :: u) = true) (hlt : t.length < p.length) : c ∈ p := by
  have hp := (isPre_iff_take p (t ++ c :: u)).mp h
  have hm : p.length = t.length + (p.length - t.length) := by omega
  rw [hm, List.take_append] at hp
  cases hk : p.length - t.length with
  | zero => omega
  | succ k =>
      rw [hk, List.take_succ_cons] at hp
      rw [← hp]
      exact List.mem_append.mpr (Or.inr (List.mem_cons_self c _))

theorem no_occ_within (p contents rest : List Char) (hnl : '\n' ∉ p)
    (hocc : occursB p contents = false) :
    ∀ i, i < contents.length →
      isPre p ((contents ++ '\n' :: rest).drop i) = false := by
  intro i hi
  by_contra hc
  have hpre : isPre p ((contents ++ '\n' :: rest).drop i) = true := by
    simpa using hc
  rw [List.drop_append_of_le_length (le_of_lt hi)] at hpre
  by_cases hlen : p.length ≤ (contents.drop i).length
  · have h1 := isPre_of_long p (contents.drop i) ('\n' :: rest) hpre hlen
    have h2 := occursB_false_all p contents hocc i
    rw [h1] at h2
    exact absurd h2 (by simp)
  · push_neg at hlen
    exact hnl (mem_of_isPre_crossing p (contents.drop i) '\n' rest hpre hlen)

theorem occAt_append_ge (pre suf p : List Char) (i : Nat) (h : pre.length ≤ i) :
    occAt (pre ++ suf) p i ↔ occAt suf p (i - pre.length) := by
  have hdrop : (pre ++ suf).drop i = suf.drop (i - pre.length) := by
    conv_lhs => rw [show i = pre.length + (i - pre.length) by omega]
    rw [List.drop_append]
  unfold occAt
  rw [hdrop]

theorem markerBlock_begin_pos :
    ∀ j, isPre BEGIN_BLOCK.data (markerBlock.drop j) = true ↔ j = 1 := by
  intro j
  by_cases hj : j < 52
  · have hb : ∀ j < 52, (isPre BEGIN_BLOCK.data (markerBlock.drop j) = true ↔ j = 1) := by
      decide
    exact hb j hj
  · push_neg at hj
    have hdrop : markerBlock.drop j = [] := by
      refine List.drop_eq_nil_of_le ?_
      have : markerBlock.length = 51 := by decide
      omega
    rw [hdrop]
    have hfalse : isPre BEGIN_BLOCK.data [] = false := by decide
    rw [hfalse]
    constructor
    · intro h; exact absurd h (by simp)
    · intro h; omega

theorem markerBlock_end_pos :
    ∀ j, isPre END_BLOCK.data (markerBlock.drop j) = true ↔ j = 27 := by
  intro j
  by_cases hj : j < 52
  · have hb : ∀ j < 52, (isPre END_BLOCK.data (markerBlock.drop j) = true ↔ j = 27) := by
      decide
    exact hb j hj
  · push_neg at hj
    have hdrop : markerBlock.drop j = [] := by
      refine List.drop_eq_nil_of_le ?_
      have : markerBlock.length = 51 := by decide
      omega
    rw [hdrop]
    have hfalse : isPre END_BLOCK.data [] = false := by decide
    rw [hfalse]
    constructor
    · intro h; exact absurd h (by simp)
    · intro h; omega

theorem ensure_occ_generic (contents p : List Char) (j0 : Nat)
    (hnl : '\n' ∉ p) (hocc : occursB p contents = false)
    (hens : ensure_managed_section_exists contents = contents ++ markerBlock)
    (hpos : ∀ j, isPre p (markerBlock.drop j) = true ↔ j = j0) :
    ∀ i, occAt (ensure_managed_section_exists contents) p i ↔
      i = contents.length + j0 := by
  have hmb : markerBlock =
      '\n' :: (BEGIN_BLOCK.data ++ ('\n' :: (END_BLOCK.data ++ ['\n']))) := rfl
  intro i
  rw [hens]
  constructor
  · intro h
    by_cases hi : i < contents.length
    · have hfalse := no_occ_within p contents
        (BEGIN_BLOCK.data ++ ('\n' :: (END_BLOCK.data ++ ['\n']))) hnl hocc i hi
      unfold occAt at h
      rw [hmb] at h
      rw [hfalse] at h
      exact absurd h (by simp)
    · push_neg at hi
      have h2 := (occAt_append_ge contents markerBlock p i hi).mp h
      have h3 := (hpos (i - contents.length)).mp h2
      omega
  · intro h
    subst h
    rw [occAt_append_ge contents markerBlock p _ (by omega)]
    have heq : contents.length + j0 - contents.length = j0 := by omega
    unfold occAt
    rw [heq]
    exact (hpos j0).mpr rfl

/-- C7 counterexample.  The claim says that after a successful
initialization run on any existing file, the file contains exactly one
begin-marker.  On a file that already contains the begin marker but not
the end marker, the source appends a fresh begin/end pair (the membership
test on line 87 requires both), leaving two begin-marker occurrences, at
character offsets 0 and 26. -/
theorem ensure_markers_claim_false :
    occAt (ensure_managed_section_exists BEGIN_BLOCK.data) BEGIN_BLOCK.data 0 ∧
    occAt (ensure_managed_section_exists BEGIN_BLOCK.data) BEGIN_BLOCK.data 26 := by
  constructor
  · decide
  · decide

/-- C7 (amended): the initialization step never removes or reorders
pre-existing content (the original content is always a prefix of the
result); if both markers already occur as substrings it leaves the file
completely unchanged; and if neither marker occurs, the resulting file
contains exactly one begin-marker occurrence and exactly one end-marker
occurrence, the begin marker before the end marker (at offsets
length + 1 and length + 27).  When exactly one of the two markers was
already present, the appended pair can leave duplicate markers. -/
theorem ensure_markers_amended :
    ∀ contents : List Char,
      (occursB BEGIN_BLOCK.data contents = true ∧
          occursB END_BLOCK.data contents = true →
        ensure_managed_section_exists contents = contents) ∧
      (∃ t : List Char, ensure_managed_section_exists contents = contents ++ t) ∧
      (occursB BEGIN_BLOCK.data contents = false →
        occursB END_BLOCK.data contents = false →
        (∀ i, occAt (ensure_managed_section_exists contents) BEGIN_BLOCK.data i ↔
          i = contents.length + 1) ∧
        (∀ i, occAt (ensure_managed_section_exists contents) END_BLOCK.data i ↔
          i = contents.length + 27)) := by
  intro contents
  refine ⟨?_, ?_, ?_⟩
  · rintro ⟨h1, h2⟩
    unfold ensure_managed_section_exists
    rw [h1, h2]
    rfl
  · unfold ensure_managed_section_exists
    split
    · exact ⟨[], by simp⟩
    · exact ⟨markerBlock, rfl⟩
  · intro hB hE
    have hens : ensure_managed_section_exists contents = contents ++ markerBlock := by
      unfold ensure_managed_section_exists
      rw [hB]
      rfl
    exact ⟨ensure_occ_generic contents BEGIN_BLOCK.data 1 (by decide) hB hens
             markerBlock_begin_pos,
           ensure_occ_generic contents END_BLOCK.data 27 (by decide) hE hens
             markerBlock_end_pos⟩

/-- C7 witness: the amended theorem applied to a file already holding the
marker pair (left unchanged) and to a marker-free one-line hosts file
(the begin marker lands exactly at offset length + 1). -/
theorem ensure_markers_amended_witness :
    ensure_managed_section_exists markerBlock = markerBlock ∧
    occAt (ensure_managed_section_exists ("127.0.0.1 localhost\n".data))
      BEGIN_BLOCK.data (("127.0.0.1 localhost\n".data).length + 1) :=
  ⟨(ensure_markers_amended markerBlock).1 ⟨by decide, by decide⟩,
   ((ensure_markers_amended ("127.0.0.1 localhost\n".data)).2.2
       (by decide) (by decide)).1 _ |>.mpr rfl⟩

end DockerHosts
